import Mathlib

set_option autoImplicit false

/-!
Shallow embedding of the ralph-wiggum coordination scripts
(`scripts/lib/ralph-common.mjs`, `scripts/ralph-worker-claim.mjs`,
`scripts/ralph-worker-complete.mjs`, `scripts/ralph-monitor-check.mjs`,
`scripts/ralph-state-read.mjs`).

Modelling conventions:
* Directories are association lists `List (String × _)` keyed by file basename;
  a directory write is `aset` (replace or append), a delete is `aerase`.
* A JSON file on disk is `JFile α`: `corrupt` for present-but-unparsable
  content (including content whose parse is a JS-falsy value, which the
  scripts treat the same way), `val a` for parsed content.
* JavaScript truthiness on optional strings is the `truthy` function
  (`undefined`/`null`/empty string are falsy).
* `fail(...)` in the scripts prints and calls `process.exit(1)`; it is NOT a
  catchable exception, and `finally` blocks do not run past it.  We model the
  three ways a script fragment can end with `Outcome`: `ok` (normal),
  `exitP` (process exit via `fail`), `exc` (catchable JS exception).
* Timestamps (`new Date().toISOString()`) are passed in as an opaque `now`
  string; process ids, note strings and log output are elided, as is the
  `base64url` encoding of progress-file names (modelled as an injective
  renaming, which it is for the bounded ids the scripts accept).
* Filesystem write failures are driven by oracles of type `Option WErr`:
  `writeFileAtomic` first calls `mkdirSync` OUTSIDE its try block (a failure
  there raises a catchable exception) and then writes a temp file and renames
  it INSIDE the try block (a failure there is caught and turned into
  `fail(...)`, i.e. a process exit that no caller can intercept).
-/

namespace Ralph

/-- JavaScript truthiness of an optional string: `undefined`, `null` and the
empty string are falsy, every other string is truthy. -/
def truthy : Option String → Bool
  | none => false
  | some s => !(s = "")

/-- JavaScript `a || b` on optional strings. -/
def jsOr (a b : Option String) : Option String :=
  if truthy a then a else b

/-- Lookup in an association list (first match wins). -/
def alookup {β : Type} : List (String × β) → String → Option β
  | [], _ => none
  | (k, v) :: t, k' => if k = k' then some v else alookup t k'

/-- Write into an association list: replace the first binding of the key in
place, or append a new binding at the end (the semantics of both a directory
write and of JavaScript `Map.set`). -/
def aset {β : Type} : List (String × β) → String → β → List (String × β)
  | [], k, v => [(k, v)]
  | (k0, v0) :: t, k, v =>
      if k0 = k then (k, v) :: t else (k0, v0) :: aset t k v

/-- Remove every binding of a key from an association list (file deletion). -/
def aerase {β : Type} : List (String × β) → String → List (String × β)
  | [], _ => []
  | (k0, v0) :: t, k =>
      if k0 = k then aerase t k else (k0, v0) :: aerase t k

/-- A JSON file that is present on disk: either unparsable or parsed. -/
inductive JFile (α : Type) where
  | corrupt
  | val (a : α)
  deriving DecidableEq, Repr

/-- Parsed contents of a `steps/<id>.json` step file.  All fields are
optional, as in the loosely-typed JSON the scripts read back. -/
structure StepData where
  stepId : Option String := none
  status : Option String := none
  worker : Option String := none
  claimedAt : Option String := none
  completedAt : Option String := none
  result : Option String := none
  deriving DecidableEq, Repr

/-- Parsed contents of a `steps/<id>.lock` lock file. -/
structure LockData where
  workerId : Option String := none
  claimedAt : Option String := none
  deriving DecidableEq, Repr

/-- One entry of the ledger's `steps` cache. -/
structure LedgerStep where
  status : Option String := none
  worker : Option String := none
  claimedAt : Option String := none
  completedAt : Option String := none
  description : Option String := none
  deriving DecidableEq, Repr

/-- Parsed contents of the central ledger `ralph-state.json`.  `steps`,
`workers`, `monitors` are `Option` so that a missing/non-object field can be
told apart from an empty one, matching the scripts' defensive checks. -/
structure Ledger where
  iteration : Nat := 0
  steps : Option (List (String × LedgerStep)) := none
  workers : Option (List String) := none
  monitors : Option (List String) := none
  completionPromise : Option String := none
  maxIterations : Option Nat := none
  deriving DecidableEq, Repr

/-- Parsed contents of a per-owner `progress/worker-<enc>.json` file. -/
structure ProgressData where
  workerId : Option String := none
  status : Option String := none
  stepsCompleted : List String := []
  lastUpdated : Option String := none
  deriving DecidableEq, Repr

/-- The shared coordination directory, the state every operation acts on.
`steps` holds the `steps/<id>.json` files keyed by `<id>`, `locks` the
`steps/<id>.lock` files, `ledger` the `ralph-state.json` file (`none` =
missing), `stateLock` whether `ralph-state.lock` exists, `progress` the
`progress/*.json` files and `outputs` files written via `--output-file`. -/
structure FS where
  steps : List (String × JFile StepData) := []
  locks : List (String × JFile LockData) := []
  ledger : Option (JFile Ledger) := none
  stateLock : Bool := false
  progress : List (String × JFile ProgressData) := []
  outputs : List (String × String) := []
  deriving DecidableEq, Repr

/-- Error conditions reported through `fail(...)` (process exit). -/
inductive RErr where
  | corruptedStep
  | alreadyStatus (st : String)
  | locked
  | writeFileFail
  | writeStepFail
  | lockTimeout
  | readJsonFail
  | stepNotFound
  | ownerMismatch
  | workerRequired
  | lockNotFound
  | lockOwnerMismatch
  deriving DecidableEq, Repr

/-- How a script fragment ends: normally, by `process.exit(1)` through
`fail(...)` (uncatchable, `finally` blocks do not run), or by a catchable
JavaScript exception.  Every constructor carries the on-disk state at that
point. -/
inductive Outcome (α : Type) where
  | ok (fs : FS) (a : α)
  | exitP (fs : FS) (e : RErr)
  | exc (fs : FS) (e : RErr)
  deriving DecidableEq, Repr

/-- Which failure a modelled `writeJsonAtomic` call hits: `mkdirFail` raises
a catchable exception (the `mkdirSync` call sits outside the try block of
`writeFileAtomic`), `renameFail` is caught inside `writeFileAtomic` and turned
into `fail(...)`, i.e. an uncatchable process exit; in both cases the target
file is left unchanged. -/
inductive WErr where
  | mkdirFail
  | renameFail
  deriving DecidableEq, Repr

/-- The `withLock(stateLockAbs, fn)` pattern used around every ledger
read-modify-write, specialised to the sequential semantics of one invocation:
if `ralph-state.lock` is already present the acquisition times out and the
operation exits; otherwise the lock is created, the body runs, and the
`finally` clause removes the lock — except when the body itself exits the
process, in which case the `finally` never runs and the lock file remains. -/
def withLockRun {α : Type} (fs : FS) (body : FS → Outcome α) : Outcome α :=
  if fs.stateLock then .exitP fs .lockTimeout
  else
    match body { fs with stateLock := true } with
    | .ok s a => .ok { s with stateLock := false } a
    | .exitP s e => .exitP s e
    | .exc s e => .exc { s with stateLock := false } e

/-- The `claimStep` ledger update (ralph-worker-claim.mjs lines 118-128):
upsert `steps[stepId]` to in-progress with owner and claim time, and add the
owner to `workers` if new. -/
def ledgerClaimUpdate (st : Ledger) (stepId workerId now : String) : Ledger :=
  let steps0 := st.steps.getD []
  let entry := (alookup steps0 stepId).getD {}
  let entry1 := { entry with
    status := some "in-progress", worker := some workerId, claimedAt := some now }
  let ws := st.workers.getD []
  let ws1 := if workerId ∈ ws then ws else ws ++ [workerId]
  { st with steps := some (aset steps0 stepId entry1), workers := some ws1 }

/-- Configuration of a claim invocation after `parseArgs` (which always fills
in a generated `workerId` when none is supplied). -/
structure ClaimCfg where
  stepId : String
  workerId : String
  force : Bool := false
  deriving DecidableEq, Repr

/-- Result payload of a successful claim. -/
structure ClaimRes where
  stepId : String
  workerId : String
  deriving DecidableEq, Repr

/-- Embedding of `claimStep` (ralph-worker-claim.mjs lines 65-140).
`stepW` and `ledgW` are the write-failure oracles for the step-file write and
the ledger write.  Path by path:
1. an existing unparsable step file fails unless `force`;
2. an existing step file with status in-progress/complete fails regardless;
3. exclusive creation of the lock file, `EEXIST` reported as `locked`;
4. atomic write of the step file: a rename failure exits inside
   `writeFileAtomic` (lock file kept — the cleanup catch never runs), a mkdir
   exception is caught by `claimStep`, which unlinks the lock and fails;
5. ledger read-modify-write under the state mutex. -/
def claimStep (cfg : ClaimCfg) (now : String) (stepW ledgW : Option WErr)
    (fs : FS) : Outcome ClaimRes :=
  let blocked : Option RErr :=
    match alookup fs.steps cfg.stepId with
    | some .corrupt => if cfg.force then none else some .corruptedStep
    | some (.val d) =>
        if d.status = some "in-progress" ∨ d.status = some "complete" then
          some (.alreadyStatus (d.status.getD ""))
        else none
    | none => none
  match blocked with
  | some e => .exitP fs e
  | none =>
    match alookup fs.locks cfg.stepId with
    | some _ => .exitP fs .locked
    | none =>
      let myLock : JFile LockData :=
        JFile.val { workerId := some cfg.workerId, claimedAt := some now }
      let fs1 := { fs with locks := aset fs.locks cfg.stepId myLock }
      match stepW with
      | some .renameFail => .exitP fs1 .writeFileFail
      | some .mkdirFail =>
          .exitP { fs1 with locks := aerase fs1.locks cfg.stepId } .writeStepFail
      | none =>
        let sd : StepData :=
          { stepId := some cfg.stepId, status := some "in-progress",
            worker := some cfg.workerId, claimedAt := some now }
        let fs2 := { fs1 with steps := aset fs1.steps cfg.stepId (JFile.val sd) }
        let ledgered : Outcome Unit := withLockRun fs2 (fun s =>
          match s.ledger with
          | some (JFile.val st) =>
            match ledgW with
            | some .renameFail => .exitP s .writeFileFail
            | some .mkdirFail => .exc s .writeFileFail
            | none => .ok { s with ledger := some (JFile.val
                (ledgerClaimUpdate st cfg.stepId cfg.workerId now)) } ()
          | _ => .exitP s .readJsonFail)
        match ledgered with
        | .ok s _ => .ok s { stepId := cfg.stepId, workerId := cfg.workerId }
        | .exitP s e => .exitP s e
        | .exc s e => .exc s e

/-- Configuration of a completion invocation after `parseArgs`.  Unlike the
claim script, `workerId` stays `null` when not supplied. -/
structure CompleteCfg where
  stepId : String
  workerId : Option String := none
  result : Option String := none
  outputFile : Option String := none
  deriving DecidableEq, Repr

/-- Result payload of a completion call: the idempotent no-op branch carries
the previously recorded completion timestamp (already jsOr-defaulted to
`null`), the effective branch carries the fresh timestamp and whether the
lock file could be removed. -/
inductive CompleteOut where
  | already (completedAt : Option String)
  | done (completedAt : String) (lockRemoved : Bool)
  deriving DecidableEq, Repr

/-- Modelled `encodeIdForFilename`: the script base64url-encodes the id
(empty id becomes "empty"); since the encoding is injective on the bounded
ids the scripts accept, we model it as the identity renaming. -/
def encodeIdForFilename (id : String) : String :=
  if id = "" then "empty" else id

/-- The `completeStep` ledger update (ralph-worker-complete.mjs lines
172-181): upsert `steps[stepId]` to complete with timestamp, and add the
owner to `workers` if new. -/
def ledgerCompleteUpdate (st : Ledger) (stepId workerId now : String) : Ledger :=
  let steps0 := st.steps.getD []
  let entry := (alookup steps0 stepId).getD {}
  let entry1 := { entry with status := some "complete", completedAt := some now }
  let ws := st.workers.getD []
  let ws1 := if workerId ∈ ws then ws else ws ++ [workerId]
  { st with steps := some (aset steps0 stepId entry1), workers := some ws1 }

/-- Embedding of `completeStep` (ralph-worker-complete.mjs lines 65-192).
`stepW` is the write-failure oracle for the step-file write (the progress and
output writes are modelled as succeeding).  Path by path:
1. missing step file fails; unparsable step file fails inside `readJsonFile`;
2. a supplied, truthy worker id that differs from the recorded one fails;
3. a missing effective worker id (neither supplied nor recorded) fails;
4. status already complete: success no-op carrying the stored timestamp;
5. missing lock file fails; unparsable lock file fails; a truthy lock owner
   differing from the effective worker fails;
6. step file flipped to complete (a mkdir exception here IS caught locally
   and turned into `fail`, unlike in the claim script);
7. optional output file written, per-owner progress record appended;
8. lock removed, ledger read-modify-write under the state mutex. -/
def completeStep (cfg : CompleteCfg) (now : String) (stepW : Option WErr)
    (fs : FS) : Outcome CompleteOut :=
  match alookup fs.steps cfg.stepId with
  | none => .exitP fs .stepNotFound
  | some .corrupt => .exitP fs .readJsonFail
  | some (.val d) =>
    if truthy cfg.workerId ∧ ¬ d.worker = cfg.workerId then
      .exitP fs .ownerMismatch
    else
      let w := jsOr cfg.workerId d.worker
      if truthy w then
        let workerId : String := w.getD ""
        if d.status = some "complete" then
          .ok fs (.already (if truthy d.completedAt then d.completedAt else none))
        else
          match alookup fs.locks cfg.stepId with
          | none => .exitP fs .lockNotFound
          | some .corrupt => .exitP fs .readJsonFail
          | some (.val ld) =>
            if truthy ld.workerId ∧ ¬ ld.workerId = some workerId then
              .exitP fs .lockOwnerMismatch
            else
              match stepW with
              | some .renameFail => .exitP fs .writeFileFail
              | some .mkdirFail => .exitP fs .writeStepFail
              | none =>
                let r1 := if truthy cfg.result then cfg.result else d.result
                let d1 := { d with
                  status := some "complete", completedAt := some now, result := r1 }
                let fs1 := { fs with steps := aset fs.steps cfg.stepId (JFile.val d1) }
                let outContent := (if truthy cfg.result then cfg.result else none).getD "Step completed"
                let fs2 :=
                  match cfg.outputFile with
                  | some out =>
                      if truthy cfg.outputFile then
                        { fs1 with outputs := aset fs1.outputs out outContent }
                      else fs1
                  | none => fs1
                let pkey := "worker-" ++ encodeIdForFilename workerId
                let p0 : ProgressData :=
                  match alookup fs2.progress pkey with
                  | some (JFile.val p) => p
                  | _ => { workerId := some workerId, status := some "complete",
                           stepsCompleted := [], lastUpdated := some now }
                let p1 := { p0 with
                  stepsCompleted :=
                    if cfg.stepId ∈ p0.stepsCompleted then p0.stepsCompleted
                    else p0.stepsCompleted ++ [cfg.stepId],
                  lastUpdated := some now }
                let fs3 := { fs2 with progress := aset fs2.progress pkey (JFile.val p1) }
                let lockRemoved := (alookup fs3.locks cfg.stepId).isSome
                let fs4 := { fs3 with locks := aerase fs3.locks cfg.stepId }
                let ledgered : Outcome Unit := withLockRun fs4 (fun s =>
                  match s.ledger with
                  | some (JFile.val st) =>
                      .ok { s with ledger := some (JFile.val
                        (ledgerCompleteUpdate st cfg.stepId workerId now)) } ()
                  | _ => .exitP s .readJsonFail)
                match ledgered with
                | .ok s _ => .ok s (.done now lockRemoved)
                | .exitP s e => .exitP s e
                | .exc s e => .exc s e
      else .exitP fs .workerRequired

/-! Monitor validation (`ralph-monitor-check.mjs`). -/

/-- One entry of the step index built by `loadStepIndex`: the merged view of
the ledger's cached step entry and the on-disk step file, file data winning. -/
structure IdxEntry where
  stepId : String
  status : String
  worker : Option String := none
  result : Option String := none
  deriving DecidableEq, Repr

/-- The id a step file contributes to the index: the file's own `stepId`
field when truthy, otherwise the file basename with `.json` stripped. -/
def derivedId (base : String) (d : StepData) : String :=
  if truthy d.stepId then d.stepId.getD "" else base

/-- Merging one parsed step file into the current index entry
(ralph-monitor-check.mjs lines 100-107): a truthy file status/worker
overrides, a string `result` (even empty) overrides. -/
def mergeEntry (cur : IdxEntry) (d : StepData) : IdxEntry :=
  { cur with
    status := if truthy d.status then d.status.getD "" else cur.status,
    worker := if truthy d.worker then d.worker else cur.worker,
    result := match d.result with | some r => some r | none => cur.result }

/-- The index entry the ledger cache seeds for an expected step id
(ralph-monitor-check.mjs lines 79-87). -/
def seedEntry (state : Ledger) (id : String) : IdxEntry :=
  let ls := (alookup (state.steps.getD []) id).getD {}
  { stepId := id,
    status := if truthy ls.status then ls.status.getD "" else "pending",
    worker := if truthy ls.worker then ls.worker else none,
    result := none }

/-- The fresh entry created when a step file introduces an id the index does
not yet hold (ralph-monitor-check.mjs line 100). -/
def freshEntry (id : String) : IdxEntry :=
  { stepId := id, status := "pending", worker := none, result := none }

/-- Folding one directory entry of `steps/*.json` into the index
(ralph-monitor-check.mjs lines 92-108): unparsable files are skipped, a
parsable one is merged into the entry of its derived id. -/
def overlayFile (idx : List (String × IdxEntry)) (file : String × JFile StepData) :
    List (String × IdxEntry) :=
  match file.2 with
  | JFile.corrupt => idx
  | JFile.val d =>
      let id := derivedId file.1 d
      let cur := (alookup idx id).getD (freshEntry id)
      aset idx id (mergeEntry cur d)

/-- Embedding of `loadStepIndex` (ralph-monitor-check.mjs lines 74-111):
seed the index with the ledger's declared step ids (status defaulting to
"pending"), then overlay every parsable step file (unparsable files are
skipped with a note).  `files` is the directory listing of `steps/*.json`,
keyed by basename without the extension.  Returns the index together with
the expected-id list. -/
def loadStepIndex (state : Ledger) (files : List (String × JFile StepData)) :
    List (String × IdxEntry) × List String :=
  let expected := (state.steps.getD []).map Prod.fst
  let seed : List (String × IdxEntry) :=
    expected.map (fun id => (id, seedEntry state id))
  (files.foldl overlayFile seed, expected)

/-- Case-insensitive substring test, the meaning of `pattern.test(content)`
for a regular expression built from an escaped literal with the `i` flag
(ASCII case folding, as both sides lowercased). -/
def containsCI (hay needle : String) : Bool :=
  decide ((needle.toList.map Char.toLower) <:+: (hay.toList.map Char.toLower))

/-- Embedding of `buildPromiseRegex` (ralph-monitor-check.mjs lines 144-153)
at the level of the literal text the compiled regex matches: the script
escapes every regex metacharacter, so the regex matches exactly its source
text as a literal, case-insensitively.  A falsy marker yields no pattern; a
marker already containing `<promise>` (case-insensitively) is matched as-is;
otherwise the marker is wrapped in the canonical delimiter pair. -/
def buildPromiseNeedle (completionPromise : Option String) : Option String :=
  match completionPromise with
  | none => none
  | some x =>
      if x = "" then none
      else if containsCI x "<promise>" then some x
      else some ("<promise>" ++ x ++ "</promise>")

/-- The extension filter of the promise search: `.md`, `.txt` and `.log`
files (ralph-monitor-check.mjs line 168). -/
def isTextName (name : String) : Bool :=
  decide (".md".toList <:+ name.toList) || decide (".txt".toList <:+ name.toList)
    || decide (".log".toList <:+ name.toList)

/-- Search of the `.md`/`.txt`/`.log` files of one directory for the promise
pattern (the `trySearchTextFiles` closure, lines 166-178). -/
def searchTextFiles (needle : String) (files : List (String × String)) : Bool :=
  (files.filter (fun p => isTextName p.1)).any (fun p => containsCI p.2 needle)

/-- Embedding of `searchCompletionPromise` (ralph-monitor-check.mjs lines
155-183): no pattern means not found; otherwise the pattern is looked for in
every index entry's string `result`, then in the text files of the steps
directory, then in those of the progress directory. -/
def searchCompletionPromise (completionPromise : Option String)
    (index : List (String × IdxEntry))
    (stepsTexts progressTexts : List (String × String)) : Bool :=
  match buildPromiseNeedle completionPromise with
  | none => false
  | some needle =>
      index.any (fun p =>
        match p.2.result with
        | some r => containsCI r needle
        | none => false)
      || searchTextFiles needle stepsTexts
      || searchTextFiles needle progressTexts

/-- The fields of a ValidationRecord that the claims are about (notes,
monitor id and timestamp elided). -/
structure Validation where
  allStepsComplete : Bool
  testsPassing : Option Bool
  promiseFound : Bool
  overallComplete : Bool
  deriving DecidableEq, Repr

/-- Embedding of the pure core of `validateCompletion` (ralph-monitor-check.mjs
lines 185-234).  `testsPassing` is the tri-state outcome of the optional
external test run (`none` = not run / framework not detected), an input to
the pure computation.  `stepsTexts`/`progressTexts` are the text files of the
two directories searched for the completion promise. -/
def validateCompletion (state : Ledger) (files : List (String × JFile StepData))
    (stepsTexts progressTexts : List (String × String))
    (testsPassing : Option Bool) : Validation :=
  let li := loadStepIndex state files
  let stepIndex := li.1
  let expectedStepIds := li.2
  let stepEntries := stepIndex.map Prod.snd
  let allStepsComplete :=
    if expectedStepIds.length > 0 then
      expectedStepIds.all (fun id =>
        match alookup stepIndex id with
        | some e => e.status = "complete"
        | none => false)
    else
      decide (stepEntries.length > 0) &&
        stepEntries.all (fun e => e.status = "complete")
  let promiseFound :=
    searchCompletionPromise state.completionPromise stepIndex stepsTexts progressTexts
  let overallComplete := allStepsComplete
    && !(testsPassing = some false)
    && (if truthy state.completionPromise then promiseFound else true)
  { allStepsComplete := allStepsComplete, testsPassing := testsPassing,
    promiseFound := promiseFound, overallComplete := overallComplete }

/-! State aggregation read path (`ralph-state-read.mjs`). -/

/-- The fields of a persisted validation record the read path uses. -/
structure VRecord where
  iteration : Nat := 0
  overallComplete : Bool := false
  deriving DecidableEq, Repr

/-- The result of `JSON.parse` succeeding on a validation file: either a
JS-falsy value (`null`, `false`, `0`, `""`) or a truthy record.  The two
behave differently in the read path: the current-iteration branch returns a
falsy parse directly, while the scan's truthiness check skips it. -/
inductive VParse where
  | falsy
  | record (v : VRecord)
  deriving DecidableEq, Repr

/-- Embedding of the filename regex `^iteration-(\d+)\.json$` followed by
`parseInt(..., 10)`: the decimal value of the digit group, or `none` when the
name does not match. -/
def parseIterName (s : String) : Option Nat :=
  let cs := s.toList
  if "iteration-".toList <+: cs ∧ ".json".toList <:+ cs ∧ cs.length ≥ 15 then
    let mid := (cs.drop 10).take (cs.length - 15)
    if mid ≠ [] ∧ mid.all Char.isDigit then
      some (mid.foldl (fun n c => n * 10 + (c.toNat - 48)) 0)
    else none
  else none

/-- The body of the scan loop of `readLatestValidation` (ralph-state-read.mjs
lines 100-112): a file whose name does not match the pattern is skipped; one
whose numeric iteration does not exceed the best so far is skipped; a
candidate whose read fails or parses to a JS-falsy value fails the
`if (candidate)` truthiness check and never becomes the best. -/
def scanStepFile (acc : Option VRecord × Int) (file : String × Option VParse) :
    Option VRecord × Int :=
  match parseIterName file.1 with
  | none => acc
  | some n =>
      if (n : Int) > acc.2 then
        match file.2 with
        | some (VParse.record v) => (some v, (n : Int))
        | _ => acc
      else acc

/-- Embedding of `readLatestValidation` (ralph-state-read.mjs lines 80-115).
`dir` is the listing of the `validation` directory (`none` = directory
missing), each entry a filename with its parse result (`none` = `JSON.parse`
raised, `some jv` = it succeeded with value `jv`, possibly falsy).  When the
file for the ledger's current iteration exists and parses, its parsed value
is returned directly (line 90) — also when that value is JS-falsy, such as a
file containing the literal `null`; only a missing file or a parse exception
falls through to the scan, which keeps the truthy-parsing record with the
numerically greatest `N`. -/
def readLatestValidation (dir : Option (List (String × Option VParse)))
    (iteration : Nat) : Option VParse :=
  match dir with
  | none => none
  | some files =>
    let currentName := "iteration-" ++ toString iteration ++ ".json"
    match alookup files currentName with
    | some (some jv) => some jv
    | _ =>
        match (files.foldl scanStepFile ((none : Option VRecord), (-1 : Int))).1 with
        | some v => some (VParse.record v)
        | none => none

/-- The `isComplete` computation of `aggregateState` (ralph-state-read.mjs
line 151), `lastValidation ? lastValidation.overallComplete : false`: the
selected record's `overallComplete`; `false` when nothing was selected or
the selected parse value is JS-falsy. -/
def isComplete (lastValidation : Option VParse) : Bool :=
  match lastValidation with
  | some (VParse.record v) => v.overallComplete
  | _ => false

/-! The general `withLock` mutex of ralph-common.mjs (lines 119-143), with
its retry loop against interference from other processes. -/

/-- How the protected function body ends: a return value or a thrown
(catchable) exception. -/
inductive FnRes (α : Type) where
  | ok (a : α)
  | exc (e : String)
  deriving DecidableEq, Repr

/-- Outcome of a `withLock` call: acquisition timed out (the body never ran),
or the body ran and ended with `r`. -/
inductive MutexOut (α : Type) where
  | timeout
  | done (r : FnRes α)
  deriving DecidableEq, Repr

/-- The acquisition loop of `withLock`: attempt `k` (at idealized time
`k * retryMs`, attempt 0 immediately) performs the exclusive create, whose
success is given by the environment `free`; on `EEXIST` the loop fails with a
timeout once the elapsed time exceeds `timeoutMs`, else sleeps `retryMs` and
retries.  `fuel` bounds the recursion; `withLock` passes enough fuel that it
never runs out (see `acquireIdx_fuel_irrelevant` style lemmas below). -/
def acquireIdx (free : Nat → Bool) (timeoutMs retryMs : Nat) :
    Nat → Nat → Option Nat
  | 0, _ => none
  | fuel + 1, k =>
      if free k then some k
      else if k * retryMs > timeoutMs then none
      else acquireIdx free timeoutMs retryMs fuel (k + 1)

/-- Embedding of `withLock(lockPath, fn, opts)` for a lock contended by other
processes (`free k` = attempt `k`'s exclusive create succeeds).  The body's
behaviour is the value `fn`.  The second component of the result is whether
the lock file created by this call is still present afterwards: the
`try/finally` removes it both on normal return and on an exception, and a
timed-out call never created it. -/
def withLock {α : Type} (free : Nat → Bool) (timeoutMs retryMs : Nat)
    (fn : FnRes α) : MutexOut α × Bool :=
  match acquireIdx free timeoutMs retryMs (timeoutMs / retryMs + 2) 0 with
  | none => (MutexOut.timeout, false)
  | some _ =>
      match fn with
      | FnRes.ok a => (MutexOut.done (FnRes.ok a), false)
      | FnRes.exc e => (MutexOut.done (FnRes.exc e), false)

/-- Whether an outcome is a successful return. -/
def Outcome.isOk {α : Type} : Outcome α → Bool
  | .ok _ _ => true
  | _ => false

/-- Sequential execution of a list of claim attempts on the same shared
directory (the serialisation of a race: the exclusive lock create is the
only synchronisation point, so racing claims are totally ordered by it).
Returns the final directory state and the per-attempt success flags. -/
def runClaims : List ClaimCfg → String → FS → FS × List Bool
  | [], _, fs => (fs, [])
  | c :: cs, now, fs =>
      let step := claimStep c now none none fs
      let fs1 := match step with
        | .ok s _ => s
        | .exitP s _ => s
        | .exc s _ => s
      let rest := runClaims cs now fs1
      (rest.1, step.isOk :: rest.2)

/-- Whether the step-file precheck of `claimStep` (lines 74-83) lets the
attempt proceed to the lock-creation step. -/
def stepCheckPasses (cfg : ClaimCfg) (fs : FS) : Prop :=
  match alookup fs.steps cfg.stepId with
  | some JFile.corrupt => cfg.force = true
  | some (JFile.val d) =>
      ¬ (d.status = some "in-progress" ∨ d.status = some "complete")
  | none => True

/-! Spec-side definitions, written from the claims' words, to be compared
with the code-side functions above. -/

/-- Spec-side for C4: the `(N, record)` pairs of the directory entries whose
filename matches `iteration-<N>.json` and whose content parses to a truthy
record. -/
def iterEntries (files : List (String × Option VParse)) : List (Nat × VRecord) :=
  files.filterMap (fun f =>
    match parseIterName f.1, f.2 with
    | some n, some (VParse.record v) => some (n, v)
    | _, _ => none)

/-- Spec-side for C5: whether a directory entry is a parsable step file
contributing data for step `id`. -/
def matchesId (id : String) (f : String × JFile StepData) : Bool :=
  match f.2 with
  | JFile.val d => derivedId f.1 d = id
  | JFile.corrupt => false

/-- Spec-side for C5: the truthy statuses the step files contribute to step
`id`, in directory order. -/
def fileStatusUpdates (files : List (String × JFile StepData)) (id : String) :
    List String :=
  files.filterMap (fun f =>
    match f.2 with
    | JFile.val d =>
        if derivedId f.1 d = id ∧ truthy d.status then some (d.status.getD "")
        else none
    | JFile.corrupt => none)

/-- The running resolution of step `id`'s status across the directory
listing, starting from a base status: each parsable file whose derived id is
`id` and whose status is truthy overrides the running value. -/
def statusFoldl (files : List (String × JFile StepData)) (id : String)
    (s : String) : String :=
  files.foldl (fun st f =>
    match f.2 with
    | JFile.val d =>
        if derivedId f.1 d = id ∧ truthy d.status then d.status.getD "" else st
    | JFile.corrupt => st) s

/-- Spec-side for C5: the status step `id` resolves to, file data winning
over the ledger cache — the last truthy status any step file contributes,
falling back to the ledger's cached status and finally to "pending". -/
def specResolvedStatus (state : Ledger) (files : List (String × JFile StepData))
    (id : String) : String :=
  let base :=
    match alookup (state.steps.getD []) id with
    | some ls => if truthy ls.status then ls.status.getD "" else "pending"
    | none => "pending"
  ((fileStatusUpdates files id).getLast?).getD base

/-- Spec-side for C5: the formula of the claim, phrased independently of the
index data structure — if the ledger declares expected ids, every expected id
resolves to complete; otherwise some parsable step file exists and every
discovered step id resolves to complete. -/
def specAllStepsComplete (state : Ledger)
    (files : List (String × JFile StepData)) : Prop :=
  let expected := (state.steps.getD []).map Prod.fst
  if expected ≠ [] then
    ∀ id ∈ expected, specResolvedStatus state files id = "complete"
  else
    (∃ f ∈ files, f.2 ≠ JFile.corrupt) ∧
      ∀ id, (∃ f ∈ files, matchesId id f) →
        specResolvedStatus state files id = "complete"

/-! Concrete fixtures for counterexamples and code-bug demonstrations. -/

/-- A step data record for a step claimed by worker w1. -/
def inProgressW1 : StepData :=
  { stepId := some "s1", status := some "in-progress", worker := some "w1",
    claimedAt := some "T0" }

/-- A step data record for a step completed by worker w1 at time T0. -/
def completeW1 : StepData :=
  { stepId := some "s1", status := some "complete", worker := some "w1",
    claimedAt := some "T0", completedAt := some "T0" }

/-- A directory state in which step s1 holds both its lock file and a step
file with status in-progress — the normal on-disk picture between a claim
and its completion. -/
def fsLockedInProgress : FS :=
  { steps := [("s1", JFile.val inProgressW1)],
    locks := [("s1", JFile.val { workerId := some "w1", claimedAt := some "T0" })],
    ledger := some (JFile.val {}) }

/-- A directory state in which step s1 is recorded complete by worker w1. -/
def fsCompleteW1 : FS :=
  { steps := [("s1", JFile.val completeW1)],
    ledger := some (JFile.val {}) }

/-- A fresh directory state: no step file, no lock, a parsable empty ledger. -/
def fsFresh : FS := { ledger := some (JFile.val {}) }

/-- Spec-side for C4: the scan step on the already-parsed `(N, record)`
pairs — keep the candidate exactly when its iteration number strictly
exceeds the best so far. -/
def scanStep (acc : Option VRecord × Int) (e : Nat × VRecord) :
    Option VRecord × Int :=
  if (e.1 : Int) > acc.2 then (some e.2, (e.1 : Int)) else acc

/-- Spec-side for C9: the literal text the promise search looks for, per the
claim's words — marker text already containing the delimiter is used
verbatim, any other marker is wrapped as promise-delimited. -/
def promiseNeedleOf (x : String) : String :=
  if containsCI x "<promise>" then x else "<promise>" ++ x ++ "</promise>"

/-- The step data a successful claim writes (ralph-worker-claim.mjs lines
100-105). -/
def claimedStepData (stepId workerId now : String) : StepData :=
  { stepId := some stepId, status := some "in-progress",
    worker := some workerId, claimedAt := some now }

/-- The directory state a successful claim of a fresh step leaves behind:
lock file created, step file written as in-progress for the new owner, the
claim folded into the ledger, the state mutex released. -/
def claimWinState (fs : FS) (st : Ledger) (cfg : ClaimCfg) (now : String) : FS :=
  { fs with
    locks := aset fs.locks cfg.stepId
      (JFile.val { workerId := some cfg.workerId, claimedAt := some now }),
    steps := aset fs.steps cfg.stepId (JFile.val (claimedStepData cfg.stepId cfg.workerId now)),
    ledger := some (JFile.val (ledgerClaimUpdate st cfg.stepId cfg.workerId now)),
    stateLock := false }

/-- The directory state an outcome leaves behind. -/
def Outcome.endFS {α : Type} : Outcome α → FS
  | .ok s _ => s
  | .exitP s _ => s
  | .exc s _ => s

/-! Association-list lemmas. -/

theorem alookup_aset {β : Type} (l : List (String × β)) (k k' : String) (v : β) :
    alookup (aset l k v) k' = if k = k' then some v else alookup l k' := by
  induction l with
  | nil => by_cases h : k = k' <;> simp [aset, alookup, h]
  | cons p t ih =>
      obtain ⟨k0, v0⟩ := p
      by_cases h0 : k0 = k
      · subst h0
        by_cases h : k0 = k' <;> simp [aset, alookup, h]
      · by_cases h : k0 = k'
        · subst h
          have hk : ¬ k = k0 := fun hh => h0 hh.symm
          simp [aset, alookup, h0, hk]
        · simp [aset, alookup, h0, h, ih]

theorem alookup_map_self {β : Type} (l : List String) (g : String → β) (k : String) :
    alookup (l.map (fun id => (id, g id))) k =
      if k ∈ l then some (g k) else none := by
  induction l with
  | nil => simp [alookup]
  | cons a t ih =>
      by_cases h : a = k
      · subst h; simp [alookup]
      · have h' : ¬ k = a := fun hh => h hh.symm
        simp [alookup, h, h', ih, List.mem_cons]

theorem alookup_eq_none {β : Type} (l : List (String × β)) (k : String) :
    alookup l k = none ↔ k ∉ l.map Prod.fst := by
  induction l with
  | nil => simp [alookup]
  | cons p t ih =>
      obtain ⟨k0, v0⟩ := p
      by_cases h : k0 = k
      · subst h
        simp [alookup]
      · have h' : ¬ k = k0 := fun hh => h hh.symm
        simp only [alookup, if_neg h, List.map_cons, List.mem_cons, ih]
        constructor
        · intro h1
          rintro (h2 | h2)
          · exact h' h2
          · exact h1 h2
        · intro h1 h2
          exact h1 (Or.inr h2)

theorem mem_keys_aset {β : Type} (l : List (String × β)) (k k' : String) (v : β) :
    k' ∈ (aset l k v).map Prod.fst ↔ k' ∈ l.map Prod.fst ∨ k' = k := by
  rw [← not_iff_not, ← alookup_eq_none, alookup_aset, not_or, ← alookup_eq_none]
  by_cases h : k = k'
  · subst h
    simp
  · have h' : ¬ k' = k := fun hh => h hh.symm
    simp [h, h']

theorem nodupKeys_aset {β : Type} (l : List (String × β)) (k : String) (v : β)
    (h : (l.map Prod.fst).Nodup) : ((aset l k v).map Prod.fst).Nodup := by
  induction l with
  | nil => simp [aset]
  | cons p t ih =>
      obtain ⟨k0, v0⟩ := p
      rw [List.map_cons, List.nodup_cons] at h
      by_cases h0 : k0 = k
      · subst h0
        simpa [aset] using h
      · rw [show aset ((k0, v0) :: t) k v = (k0, v0) :: aset t k v by simp [aset, h0]]
        rw [List.map_cons, List.nodup_cons]
        refine ⟨?_, ih h.2⟩
        rw [mem_keys_aset]
        rintro (h1 | h1)
        · exact h.1 h1
        · exact h0 h1

theorem alookup_mem {β : Type} (l : List (String × β)) (p : String × β)
    (h : (l.map Prod.fst).Nodup) (hp : p ∈ l) : alookup l p.1 = some p.2 := by
  induction l with
  | nil => simp at hp
  | cons q t ih =>
      obtain ⟨k0, v0⟩ := q
      rw [List.map_cons, List.nodup_cons] at h
      rcases List.mem_cons.mp hp with h1 | h1
      · subst h1; simp [alookup]
      · have hne : ¬ k0 = p.1 := by
          intro hh
          apply h.1
          rw [hh]
          exact List.mem_map.mpr ⟨p, h1, rfl⟩
        simp [alookup, hne, ih h.2 h1]

theorem mem_of_alookup {β : Type} (l : List (String × β)) (k : String) (v : β)
    (h : alookup l k = some v) : (k, v) ∈ l := by
  induction l with
  | nil => simp [alookup] at h
  | cons q t ih =>
      obtain ⟨k0, v0⟩ := q
      by_cases h0 : k0 = k
      · subst h0
        simp [alookup] at h
        simp [h]
      · simp [alookup, h0] at h
        simp [ih h]

/-! C10 -/

/-- C10: with no expected step ids declared in the ledger and no step file on
disk, a validation pass computes allStepsComplete = false (the empty step set
is not vacuously complete) and hence overallComplete = false, whatever the
test outcome and completion-promise configuration. -/
theorem validate_empty_not_complete (state : Ledger)
    (stepsTexts progressTexts : List (String × String)) (testsPassing : Option Bool)
    (hsteps : state.steps.getD [] = []) :
    (validateCompletion state [] stepsTexts progressTexts testsPassing).allStepsComplete
        = false ∧
    (validateCompletion state [] stepsTexts progressTexts testsPassing).overallComplete
        = false := by
  simp [validateCompletion, loadStepIndex, hsteps]

/-- Witness for C10: a concrete empty directory with tests passing and a
configured, found-nowhere-irrelevant promise still yields not-complete. -/
theorem validate_empty_not_complete_witness :
    ({ completionPromise := some "DONE" } : Ledger).steps.getD [] = [] ∧
    (validateCompletion { completionPromise := some "DONE" } [] [] [] (some true)).allStepsComplete = false ∧
    (validateCompletion { completionPromise := some "DONE" } [] [] [] (some true)).overallComplete = false := by
  refine ⟨rfl, ?_⟩
  exact validate_empty_not_complete { completionPromise := some "DONE" } [] [] (some true) rfl

/-! C2 -/

/-- C2 counterexample: completing a step whose file already has status
complete is NOT unconditionally a success — when the call supplies a worker
id (w2) different from the recorded one (w1), the mismatch check fires
before the idempotent branch and the call fails, contradicting the claim's
"for every such step, the operation returns success". -/
theorem complete_already_mismatch_fails :
    completeStep { stepId := "s1", workerId := some "w2" } "T1" none fsCompleteW1
      = Outcome.exitP fsCompleteW1 RErr.ownerMismatch ∧
    (completeStep { stepId := "s1", workerId := some "w2" } "T1" none fsCompleteW1).isOk
      = false := by
  constructor <;> rfl

/-- C2 (amended): completing a step whose file already has status complete is
idempotent PROVIDED the owner check passes (any supplied truthy worker id
matches the recorded one) and an effective worker id exists: the call
succeeds, reports the originally recorded completion timestamp, and leaves
every file — step file, progress file, lock file and ledger — unchanged
(the success outcome carries the input state itself). -/
theorem complete_already_complete_idempotent (cfg : CompleteCfg) (now : String)
    (stepW : Option WErr) (fs : FS) (d : StepData)
    (hstep : alookup fs.steps cfg.stepId = some (JFile.val d))
    (hst : d.status = some "complete")
    (hown : truthy cfg.workerId = true → d.worker = cfg.workerId)
    (hw : truthy (jsOr cfg.workerId d.worker) = true) :
    completeStep cfg now stepW fs =
      Outcome.ok fs (CompleteOut.already
        (if truthy d.completedAt then d.completedAt else none)) := by
  have hmm : ¬ (truthy cfg.workerId = true ∧ ¬ d.worker = cfg.workerId) := by
    rintro ⟨h1, h2⟩
    exact h2 (hown h1)
  simp only [completeStep, hstep, hst]
  rw [if_neg (by simpa using hmm), if_pos hw]
  simp

/-- Witness for C2: a concrete already-complete step, completed again with
the matching owner, returns the originally recorded timestamp T0 and leaves
the state untouched. -/
theorem complete_already_complete_idempotent_witness :
    completeStep { stepId := "s1", workerId := some "w1" } "T1" none fsCompleteW1 =
      Outcome.ok fsCompleteW1 (CompleteOut.already (some "T0")) := by
  have h := complete_already_complete_idempotent
    { stepId := "s1", workerId := some "w1" } "T1" none fsCompleteW1 completeW1
    (by rfl) (by rfl) (fun _ => by rfl) (by rfl)
  simpa using h

/-! C3 -/

/-- C3 counterexample: a completion call that supplies the worker id "" —
a worker id different from the recorded owner w1 — does NOT fail with an
owner mismatch: the empty string is JS-falsy, so the mismatch check is
skipped, the recorded owner is adopted, and the call completes the step,
writing the step file. -/
theorem complete_empty_ownerid_bypasses_check :
    (completeStep { stepId := "s1", workerId := some "" } "T1" none
        fsLockedInProgress).isOk = true ∧
    alookup (completeStep { stepId := "s1", workerId := some "" } "T1" none
        fsLockedInProgress).endFS.steps "s1" ≠
      alookup fsLockedInProgress.steps "s1" := by
  constructor
  · rfl
  · intro h
    simp [completeStep, fsLockedInProgress, inProgressW1, alookup, aset, truthy, jsOr,
      withLockRun, Outcome.endFS, aerase, encodeIdForFilename] at h

/-- C3 (amended): for every step file recording worker W, a completion call
that supplies a NON-EMPTY worker id different from W fails with an
owner-mismatch error, and the failure occurs before any write — the failure
outcome carries the input state unchanged. -/
theorem complete_owner_mismatch_fails (cfg : CompleteCfg) (now : String)
    (stepW : Option WErr) (fs : FS) (d : StepData) (w wrec : String)
    (hstep : alookup fs.steps cfg.stepId = some (JFile.val d))
    (hrec : d.worker = some wrec)
    (hw : cfg.workerId = some w) (hne : w ≠ "") (hnew : w ≠ wrec) :
    completeStep cfg now stepW fs = Outcome.exitP fs RErr.ownerMismatch := by
  have ht : truthy cfg.workerId = true := by simp [hw, truthy, hne]
  have hd : ¬ d.worker = cfg.workerId := by
    rw [hrec, hw]
    intro h
    exact hnew (Option.some.inj h).symm
  simp only [completeStep, hstep]
  rw [if_pos ⟨ht, hd⟩]

/-- Witness for C3: worker w2 trying to complete a step claimed by w1 is
rejected with an owner mismatch and the state is unchanged. -/
theorem complete_owner_mismatch_fails_witness :
    completeStep { stepId := "s1", workerId := some "w2" } "T1" none
        fsLockedInProgress = Outcome.exitP fsLockedInProgress RErr.ownerMismatch := by
  exact complete_owner_mismatch_fails
    { stepId := "s1", workerId := some "w2" } "T1" none fsLockedInProgress
    inProgressW1 "w2" "w1" (by rfl) (by rfl) (by rfl)
    (by decide) (by decide)

/-! C7 -/

/-- C7 (code bug): if the claim succeeds in creating the step's lock file but
the subsequent step-file write fails in its write/rename phase, the lock file
is NOT removed: `writeFileAtomic` catches the error itself and calls
`fail(...)`, which is `process.exit(1)`, so the cleanup catch in `claimStep`
("Clean up lock file on failure") never runs and the lock is orphaned.  The
cleanup only runs for the mkdir phase, whose exception does propagate —
demonstrating that the cleanup (and the claim) state the intended behaviour
while the write/rename path contradicts it.  Concretely, from a fresh
directory: the rename-failure outcome is a process exit whose final state
still contains the lock file for s1, while the mkdir-failure outcome has it
removed. -/
theorem claim_write_failure_orphans_lock :
    (claimStep { stepId := "s1", workerId := "w1" } "T0" (some WErr.renameFail)
        none fsFresh).isOk = false ∧
    alookup (claimStep { stepId := "s1", workerId := "w1" } "T0"
        (some WErr.renameFail) none fsFresh).endFS.locks "s1"
      = some (JFile.val { workerId := some "w1", claimedAt := some "T0" }) ∧
    alookup (claimStep { stepId := "s1", workerId := "w1" } "T0"
        (some WErr.renameFail) none fsFresh).endFS.steps "s1" = none ∧
    alookup (claimStep { stepId := "s1", workerId := "w1" } "T0"
        (some WErr.mkdirFail) none fsFresh).endFS.locks "s1" = none := by
  refine ⟨rfl, rfl, rfl, rfl⟩

/-! C8 -/

/-- C8: claiming a step whose file contains invalid (unparsable) content
fails without the force flag; with force — in an otherwise cooperative state
(no lock file held, ledger readable, state mutex free, writes succeeding) —
the claim succeeds and resets the step file to status in-progress with the
new owner and the claim timestamp; and a readable step file whose status is
in-progress or complete makes the claim fail regardless of force. -/
theorem claim_force_semantics (cfg : ClaimCfg) (now : String) (fs : FS) :
    (alookup fs.steps cfg.stepId = some JFile.corrupt → cfg.force = false →
        claimStep cfg now none none fs = Outcome.exitP fs RErr.corruptedStep)
  ∧ (∀ st : Ledger, alookup fs.steps cfg.stepId = some JFile.corrupt →
        cfg.force = true → fs.stateLock = false →
        fs.ledger = some (JFile.val st) →
        alookup fs.locks cfg.stepId = none →
        (claimStep cfg now none none fs).isOk = true ∧
          alookup (claimStep cfg now none none fs).endFS.steps cfg.stepId
            = some (JFile.val
              { stepId := some cfg.stepId, status := some "in-progress",
                worker := some cfg.workerId, claimedAt := some now }))
  ∧ (∀ d : StepData, alookup fs.steps cfg.stepId = some (JFile.val d) →
        (d.status = some "in-progress" ∨ d.status = some "complete") →
        claimStep cfg now none none fs =
          Outcome.exitP fs (RErr.alreadyStatus (d.status.getD ""))) := by
  refine ⟨?_, ?_, ?_⟩
  · intro hc hf
    simp [claimStep, hc, hf]
  · intro st hc hf hsl hledg hlock
    constructor
    · simp [claimStep, hc, hf, hlock, withLockRun, hsl, hledg, Outcome.isOk]
    · simp [claimStep, hc, hf, hlock, withLockRun, hsl, hledg, Outcome.endFS,
        alookup_aset]
  · intro d hd hst
    simp [claimStep, hd, hst]

/-- Witness for C8: a concrete corrupt step file is rejected without force,
reset to an in-progress claim by w1 under force, and a concrete in-progress
step file is rejected even with force. -/
theorem claim_force_semantics_witness :
    claimStep { stepId := "s1", workerId := "w1" }
        "T0" none none { steps := [("s1", JFile.corrupt)], ledger := some (JFile.val {}) }
      = Outcome.exitP { steps := [("s1", JFile.corrupt)], ledger := some (JFile.val {}) }
          RErr.corruptedStep ∧
    ((claimStep { stepId := "s1", workerId := "w1", force := true }
        "T0" none none { steps := [("s1", JFile.corrupt)], ledger := some (JFile.val {}) }).isOk
      = true ∧
      alookup (claimStep { stepId := "s1", workerId := "w1", force := true }
        "T0" none none { steps := [("s1", JFile.corrupt)], ledger := some (JFile.val {}) }).endFS.steps "s1"
        = some (JFile.val
          { stepId := some "s1", status := some "in-progress",
            worker := some "w1", claimedAt := some "T0" })) ∧
    claimStep { stepId := "s1", workerId := "w2", force := true } "T0" none none
        fsLockedInProgress
      = Outcome.exitP fsLockedInProgress (RErr.alreadyStatus "in-progress") := by
  refine ⟨?_, ?_, ?_⟩
  · exact (claim_force_semantics { stepId := "s1", workerId := "w1" } "T0"
      { steps := [("s1", JFile.corrupt)], ledger := some (JFile.val {}) }).1 rfl rfl
  · exact (claim_force_semantics { stepId := "s1", workerId := "w1", force := true } "T0"
      { steps := [("s1", JFile.corrupt)], ledger := some (JFile.val {}) }).2.1
      {} rfl rfl rfl rfl rfl
  · have h := (claim_force_semantics { stepId := "s1", workerId := "w2", force := true }
      "T0" fsLockedInProgress).2.2 inProgressW1 rfl (Or.inl rfl)
    simpa using h

/-! C1 -/

/-- Helper: a claim attempt against a state whose step file is readable with
status in-progress or complete exits with the already-status error before the
lock check, leaving the state unchanged. -/
theorem claimStep_blocked (cfg : ClaimCfg) (now : String) (sW lW : Option WErr)
    (fs : FS) (d : StepData)
    (hd : alookup fs.steps cfg.stepId = some (JFile.val d))
    (hst : d.status = some "in-progress" ∨ d.status = some "complete") :
    claimStep cfg now sW lW fs =
      Outcome.exitP fs (RErr.alreadyStatus (d.status.getD "")) := by
  simp [claimStep, hd, hst]

/-- Helper: once the shared state records the step as in-progress, every
further claim attempt on the same id fails and leaves the state unchanged. -/
theorem runClaims_stuck (cs : List ClaimCfg) (now : String) (s : FS)
    (id : String) (d : StepData)
    (hd : alookup s.steps id = some (JFile.val d))
    (hst : d.status = some "in-progress" ∨ d.status = some "complete")
    (hall : ∀ x ∈ cs, x.stepId = id) :
    runClaims cs now s = (s, cs.map fun _ => false) := by
  induction cs with
  | nil => rfl
  | cons c t ih =>
      have hc : c.stepId = id := hall c (List.mem_cons_self c t)
      have hb := claimStep_blocked c now none none s d (by rw [hc]; exact hd) hst
      have ht := ih (fun x hx => hall x (List.mem_cons_of_mem c hx))
      simp [runClaims, hb, ht, Outcome.isOk]

/-- C1 counterexample: a claim attempt on a step whose lock file exists does
NOT always fail with the "currently locked" contention error — when the step
file exists with status in-progress (the normal picture while a claim is
held), the step-file check fires first and the attempt fails with the
already-in-progress error instead, a different error than the claim states. -/
theorem claim_locked_not_always_locked_error :
    claimStep { stepId := "s1", workerId := "w2" } "T1" none none fsLockedInProgress
      = Outcome.exitP fsLockedInProgress (RErr.alreadyStatus "in-progress") ∧
    (alookup fsLockedInProgress.locks "s1").isSome = true ∧
    RErr.alreadyStatus "in-progress" ≠ RErr.locked := by
  refine ⟨rfl, rfl, by decide⟩

/-- C1 (amended): a claim attempt on a step whose lock file already exists
always fails before writing the step file or the ledger (the failure outcome
carries the input state unchanged), and the error is specifically "currently
locked" whenever the step-file precheck passes (file absent, corrupt with
force, or readable with a non-terminal status); consequently, of N ≥ 2 claim
attempts on the same fresh step id executed in their serialisation order,
exactly the first succeeds, all others fail, and the step file afterward
records exactly the winning owner in progress. -/
theorem claim_contention_and_race :
    (∀ (cfg : ClaimCfg) (now : String) (sW lW : Option WErr) (fs : FS),
        (alookup fs.locks cfg.stepId).isSome = true →
        ∃ e : RErr, claimStep cfg now sW lW fs = Outcome.exitP fs e ∧
          (stepCheckPasses cfg fs → e = RErr.locked))
  ∧ (∀ (c : ClaimCfg) (cs : List ClaimCfg) (now : String) (fs : FS) (st : Ledger),
        (∀ x ∈ cs, x.stepId = c.stepId) →
        alookup fs.steps c.stepId = none →
        alookup fs.locks c.stepId = none →
        fs.stateLock = false →
        fs.ledger = some (JFile.val st) →
        (runClaims (c :: cs) now fs).2 = true :: cs.map (fun _ => false) ∧
          alookup (runClaims (c :: cs) now fs).1.steps c.stepId
            = some (JFile.val (claimedStepData c.stepId c.workerId now))) := by
  constructor
  · intro cfg now sW lW fs hlock
    obtain ⟨l, hl⟩ := Option.isSome_iff_exists.mp hlock
    match hd : alookup fs.steps cfg.stepId with
    | some JFile.corrupt =>
        by_cases hf : cfg.force
        · exact ⟨RErr.locked, by simp [claimStep, hd, hf, hl], fun _ => rfl⟩
        · refine ⟨RErr.corruptedStep, by simp [claimStep, hd, hf], ?_⟩
          intro hp
          simp [stepCheckPasses, hd, hf] at hp
    | some (JFile.val d) =>
        by_cases hst : d.status = some "in-progress" ∨ d.status = some "complete"
        · refine ⟨RErr.alreadyStatus (d.status.getD ""),
            claimStep_blocked cfg now sW lW fs d hd hst, ?_⟩
          intro hp
          simp [stepCheckPasses, hd] at hp
          exact absurd hst (by tauto)
        · exact ⟨RErr.locked, by simp [claimStep, hd, hst, hl], fun _ => rfl⟩
    | none =>
        exact ⟨RErr.locked, by simp [claimStep, hd, hl], fun _ => rfl⟩
  · intro c cs now fs st hall hsteps hlock hsl hledg
    have hwin : claimStep c now none none fs = Outcome.ok
        (claimWinState fs st c now) { stepId := c.stepId, workerId := c.workerId } := by
      simp [claimStep, hsteps, hlock, withLockRun, hsl, hledg, claimWinState,
        claimedStepData]
    have hlook : alookup (claimWinState fs st c now).steps c.stepId
        = some (JFile.val (claimedStepData c.stepId c.workerId now)) := by
      simp [claimWinState, alookup_aset]
    have hrest := runClaims_stuck cs now (claimWinState fs st c now) c.stepId
      (claimedStepData c.stepId c.workerId now)
      hlook (Or.inl rfl) hall
    constructor
    · simp [runClaims, hwin, Outcome.isOk, hrest]
    · simp [runClaims, hwin, Outcome.isOk, hrest, hlook]

/-- Witness for C1: three workers racing on the fresh step s1 — w1's attempt
succeeds, w2's and w3's fail, and the step file afterward records w1. -/
theorem claim_contention_and_race_witness :
    (∃ e : RErr, claimStep { stepId := "s1", workerId := "w2" } "T1" none none
        { locks := [("s1", JFile.val { workerId := some "w1" })] }
        = Outcome.exitP { locks := [("s1", JFile.val { workerId := some "w1" })] } e ∧
        (stepCheckPasses { stepId := "s1", workerId := "w2" }
          { locks := [("s1", JFile.val { workerId := some "w1" })] } → e = RErr.locked)) ∧
    ((runClaims [⟨"s1", "w1", false⟩, ⟨"s1", "w2", false⟩, ⟨"s1", "w3", false⟩] "T0" fsFresh).2
        = [true, false, false] ∧
      alookup (runClaims [⟨"s1", "w1", false⟩, ⟨"s1", "w2", false⟩, ⟨"s1", "w3", false⟩]
          "T0" fsFresh).1.steps "s1"
        = some (JFile.val (claimedStepData "s1" "w1" "T0"))) := by
  constructor
  · exact claim_contention_and_race.1 { stepId := "s1", workerId := "w2" } "T1" none none
      { locks := [("s1", JFile.val { workerId := some "w1" })] } rfl
  · have h := claim_contention_and_race.2 ⟨"s1", "w1", false⟩
      [⟨"s1", "w2", false⟩, ⟨"s1", "w3", false⟩] "T0" fsFresh {}
      (by intro x hx; fin_cases hx <;> rfl) rfl rfl rfl rfl
    simpa using h

/-! C6 -/

/-- Helper: when no creation attempt in the reachable window succeeds, the
acquisition loop ends in a timeout (given enough fuel). -/
theorem acquireIdx_none (free : Nat → Bool) (t r : Nat) (hr : 0 < r)
    (h : ∀ k, k ≤ t / r + 1 → free k = false) :
    ∀ fuel k, k ≤ t / r + 1 → t / r + 2 ≤ fuel + k →
      acquireIdx free t r fuel k = none := by
  intro fuel
  induction fuel with
  | zero => intro k hk hf; omega
  | succ f ih =>
      intro k hk hf
      rw [acquireIdx, h k hk]
      simp only [Bool.false_eq_true, if_false]
      by_cases hkr : k * r > t
      · rw [if_pos hkr]
      · rw [if_neg hkr]
        have hk2 : k ≤ t / r := (Nat.le_div_iff_mul_le hr).mpr (by omega)
        exact ih (k + 1) (by omega) (by omega)

/-- Helper: when `k0` is the first attempt whose creation succeeds and it
lies inside the reachable window, the acquisition loop returns it. -/
theorem acquireIdx_some (free : Nat → Bool) (t r : Nat) (_hr : 0 < r) (k0 : Nat)
    (hk0 : k0 ≤ t / r + 1) (hfree : free k0 = true)
    (hmin : ∀ j, j < k0 → free j = false) :
    ∀ fuel k, k ≤ k0 → k0 + 1 ≤ fuel + k →
      acquireIdx free t r fuel k = some k0 := by
  intro fuel
  induction fuel with
  | zero => intro k hk hf; omega
  | succ f ih =>
      intro k hk hf
      by_cases hke : k = k0
      · subst hke
        rw [acquireIdx, hfree]
        simp
      · have hklt : k < k0 := lt_of_le_of_ne hk hke
        rw [acquireIdx, hmin k hklt]
        simp only [Bool.false_eq_true, if_false]
        have hno : ¬ k * r > t := by
          have hk2 : k ≤ t / r := by omega
          have h1 : k * r ≤ (t / r) * r := Nat.mul_le_mul_right r hk2
          have h2 : (t / r) * r ≤ t := Nat.div_mul_le_self t r
          omega
        rw [if_neg hno]
        exact ih (k + 1) (by omega) (by omega)

/-- C6: withMutex (withLock): for every lock path environment `free` and
function body `fn`, when acquisition succeeds within the timeout window —
some creation attempt inside the reachable window succeeds — the body is
executed and the lock file is removed afterward unconditionally, including
when the body raises an exception (the outcome carries the body's own
result, exceptional or not, with no lock left behind); when no attempt in
the window succeeds, the call fails with a timeout error and the body is
never executed.  Attempt k happens after k sleeps of retryMs, and the loop
gives up once the elapsed time exceeds timeoutMs, so the window is
0 .. timeoutMs / retryMs + 1. -/
theorem withLock_spec {α : Type} (free : Nat → Bool) (timeoutMs retryMs : Nat)
    (fn : FnRes α) (hr : 0 < retryMs) :
    ((∃ k, k ≤ timeoutMs / retryMs + 1 ∧ free k = true) →
        withLock free timeoutMs retryMs fn = (MutexOut.done fn, false))
  ∧ ((∀ k, k ≤ timeoutMs / retryMs + 1 → free k = false) →
        withLock free timeoutMs retryMs fn = (MutexOut.timeout, false)) := by
  constructor
  · rintro ⟨k, hk, hfree⟩
    have hex : ∃ j, free j = true := ⟨k, hfree⟩
    have hk0free : free (Nat.find hex) = true := Nat.find_spec hex
    have hk0min : ∀ j, j < Nat.find hex → free j = false := by
      intro j hj
      have := Nat.find_min hex hj
      simpa using this
    have hk0le : Nat.find hex ≤ timeoutMs / retryMs + 1 :=
      le_trans (Nat.find_min' hex hfree) hk
    have hfuel : Nat.find hex + 1 ≤ timeoutMs / retryMs + 2 + 0 :=
      Nat.le_trans (Nat.succ_le_succ hk0le) (Nat.le_add_right _ 0)
    have hacq := acquireIdx_some free timeoutMs retryMs hr (Nat.find hex)
      hk0le hk0free hk0min (timeoutMs / retryMs + 2) 0 (Nat.zero_le _) hfuel
    unfold withLock
    rw [hacq]
    cases fn <;> rfl
  · intro h
    have hfuel : timeoutMs / retryMs + 2 ≤ timeoutMs / retryMs + 2 + 0 :=
      Nat.le_add_right _ 0
    have hacq := acquireIdx_none free timeoutMs retryMs hr h
      (timeoutMs / retryMs + 2) 0 (Nat.zero_le _) hfuel
    unfold withLock
    rw [hacq]

/-- Witness for C6: with the default timeout 5000 and retry 25, an
environment where attempt 3 succeeds runs an exception-raising body and
leaves no lock behind; an environment where the lock is never free times
out without running the body. -/
theorem withLock_spec_witness :
    withLock (fun k => decide (k = 3)) 5000 25 (FnRes.exc (α := Nat) "boom")
        = (MutexOut.done (FnRes.exc "boom"), false) ∧
    withLock (fun _ => false) 100 25 (FnRes.ok (7 : Nat))
        = (MutexOut.timeout, false) := by
  constructor
  · exact (withLock_spec (fun k => decide (k = 3)) 5000 25 (FnRes.exc "boom")
      (by decide)).1 ⟨3, by decide, by decide⟩
  · exact (withLock_spec (fun _ => false) 100 25 (FnRes.ok 7)
      (by decide)).2 (fun k _ => rfl)

/-! C9 -/

/-- C9: completion-promise matching.  For every configured non-empty marker
text x: the pattern built is exactly `promiseNeedleOf x` — the literal
`<promise>x</promise>` when x does not already contain the delimiter
(case-insensitively), and x itself verbatim when it does, so an
already-wrapped marker is not wrapped again; matching is case-insensitive
literal containment (the script escapes every regex metacharacter, so the
compiled regex matches its source text literally, which the embedding
reflects in `containsCI`); and the search succeeds exactly when the pattern
occurs in some step result of the index or in some `.md`/`.txt`/`.log` file
of the steps or progress directories. -/
theorem searchPromise_spec (x : String) (hx : x ≠ "")
    (index : List (String × IdxEntry))
    (stepsTexts progressTexts : List (String × String)) :
    buildPromiseNeedle (some x) = some (promiseNeedleOf x)
  ∧ (containsCI x "<promise>" = false →
      promiseNeedleOf x = "<promise>" ++ x ++ "</promise>")
  ∧ (containsCI x "<promise>" = true → promiseNeedleOf x = x)
  ∧ (searchCompletionPromise (some x) index stepsTexts progressTexts = true ↔
      ((∃ p ∈ index, ∃ r, p.2.result = some r ∧
          containsCI r (promiseNeedleOf x) = true)
       ∨ (∃ f ∈ stepsTexts, isTextName f.1 = true ∧
            containsCI f.2 (promiseNeedleOf x) = true)
       ∨ (∃ f ∈ progressTexts, isTextName f.1 = true ∧
            containsCI f.2 (promiseNeedleOf x) = true))) := by
  have hbuild : buildPromiseNeedle (some x) = some (promiseNeedleOf x) := by
    by_cases h : containsCI x "<promise>" = true <;>
      simp [buildPromiseNeedle, hx, promiseNeedleOf, h]
  refine ⟨hbuild, fun h => by simp [promiseNeedleOf, h],
    fun h => by simp [promiseNeedleOf, h], ?_⟩
  have hm : ∀ (o : Option String),
      (match o with
        | some r => containsCI r (promiseNeedleOf x)
        | none => false) = true ↔
        ∃ r, o = some r ∧ containsCI r (promiseNeedleOf x) = true := by
    intro o
    cases o <;> simp
  simp only [searchCompletionPromise, hbuild, searchTextFiles, Bool.or_eq_true,
    List.any_eq_true, List.mem_filter, hm]
  constructor
  · rintro ((⟨p, hp, hc⟩ | ⟨f, ⟨hf, ht⟩, hc⟩) | ⟨f, ⟨hf, ht⟩, hc⟩)
    · exact Or.inl ⟨p, hp, hc⟩
    · exact Or.inr (Or.inl ⟨f, hf, ht, hc⟩)
    · exact Or.inr (Or.inr ⟨f, hf, ht, hc⟩)
  · rintro (⟨p, hp, hc⟩ | ⟨f, hf, ht, hc⟩ | ⟨f, hf, ht, hc⟩)
    · exact Or.inl (Or.inl ⟨p, hp, hc⟩)
    · exact Or.inl (Or.inr ⟨f, ⟨hf, ht⟩, hc⟩)
    · exact Or.inr ⟨f, ⟨hf, ht⟩, hc⟩

/-- Witness for C9: the marker "Ship it?" (with a regex metacharacter) is
searched as the wrapped literal and found case-insensitively in a progress
log; the pre-wrapped marker "<PROMISE>done</PROMISE>" is used verbatim. -/
theorem searchPromise_spec_witness :
    (searchCompletionPromise (some "Ship it?") []
        [] [("notes.log", "ok <Promise>ship it?</Promise> end")] = true) ∧
    promiseNeedleOf "<PROMISE>done</PROMISE>" = "<PROMISE>done</PROMISE>" := by
  constructor
  · exact (searchPromise_spec "Ship it?" (by decide) []
      [] [("notes.log", "ok <Promise>ship it?</Promise> end")]).2.2.2.mpr
      (Or.inr (Or.inr ⟨("notes.log", "ok <Promise>ship it?</Promise> end"),
        by decide, by decide, by decide⟩))
  · exact (searchPromise_spec "<PROMISE>done</PROMISE>" (by decide) [] [] []).2.2.1
      (by decide)

/-! C4 -/

/-- Helper: the scan over the directory listing equals the scan over the
truthy-parsing `(N, record)` pairs — files with non-matching names never
touch the accumulator, and candidates that raise on parse or parse to a
falsy value are read but never kept. -/
theorem scan_files_eq_entries (files : List (String × Option VParse)) :
    ∀ acc, files.foldl scanStepFile acc = (iterEntries files).foldl scanStep acc := by
  induction files with
  | nil => intro acc; rfl
  | cons f t ih =>
      intro acc
      match hn : parseIterName f.1, hc : f.2 with
      | none, _ =>
          simp [iterEntries, List.filterMap_cons, hn, List.foldl_cons,
            scanStepFile, ih]
      | some n, none =>
          have hstep : scanStepFile acc f = acc := by
            simp only [scanStepFile, hn, hc]
            split <;> rfl
          simp [iterEntries, List.filterMap_cons, hn, hc, List.foldl_cons, hstep, ih]
      | some n, some VParse.falsy =>
          have hstep : scanStepFile acc f = acc := by
            simp only [scanStepFile, hn, hc]
            split <;> rfl
          simp [iterEntries, List.filterMap_cons, hn, hc, List.foldl_cons, hstep, ih]
      | some n, some (VParse.record v) =>
          have hstep : scanStepFile acc f = scanStep acc (n, v) := by
            simp [scanStepFile, hn, hc, scanStep]
          simp [iterEntries, List.filterMap_cons, hn, hc, List.foldl_cons, hstep, ih]

/-- Helper: entries that never exceed the accumulator leave it unchanged. -/
theorem scan_no_update (entries : List (Nat × VRecord)) :
    ∀ acc : Option VRecord × Int, (∀ e ∈ entries, (e.1 : Int) ≤ acc.2) →
      entries.foldl scanStep acc = acc := by
  induction entries with
  | nil => intro acc _; rfl
  | cons e t ih =>
      intro acc h
      have he : ¬ ((e.1 : Int) > acc.2) := not_lt.mpr (h e (List.mem_cons_self e t))
      rw [List.foldl_cons, scanStep, if_neg he]
      exact ih acc (fun x hx => h x (List.mem_cons_of_mem e hx))

/-- Helper: a some accumulator never becomes none again. -/
theorem scan_isSome (entries : List (Nat × VRecord)) :
    ∀ acc : Option VRecord × Int, acc.1.isSome = true →
      (entries.foldl scanStep acc).1.isSome = true := by
  induction entries with
  | nil => intro acc h; exact h
  | cons e t ih =>
      intro acc h
      rw [List.foldl_cons, scanStep]
      split
      · exact ih _ rfl
      · exact ih _ h

/-- Helper: when the iteration numbers are distinct, the scan started below
the maximum ends on the record of the numerically greatest iteration. -/
theorem scan_max (entries : List (Nat × VRecord)) :
    ∀ (acc : Option VRecord × Int) (n0 : Nat) (v0 : VRecord),
      (entries.map Prod.fst).Nodup → (n0, v0) ∈ entries →
      (∀ e ∈ entries, e.1 ≤ n0) → acc.2 < (n0 : Int) →
      entries.foldl scanStep acc = (some v0, (n0 : Int)) := by
  induction entries with
  | nil => intro acc n0 v0 _ hmem _ _; simp at hmem
  | cons e t ih =>
      intro acc n0 v0 hnodup hmem hmax hacc
      rw [List.map_cons, List.nodup_cons] at hnodup
      by_cases he : e.1 = n0
      · have hev : e = (n0, v0) := by
          rcases List.mem_cons.mp hmem with h1 | h1
          · exact h1.symm
          · exfalso
            apply hnodup.1
            rw [he]
            exact List.mem_map.mpr ⟨(n0, v0), h1, rfl⟩
        have hn0nin : n0 ∉ t.map Prod.fst := by
          rw [← he]
          exact hnodup.1
        rw [List.foldl_cons, hev, scanStep, if_pos hacc]
        apply scan_no_update
        intro x hx
        have hne : x.1 ≠ n0 := by
          intro hh
          apply hn0nin
          rw [← hh]
          exact List.mem_map.mpr ⟨x, hx, rfl⟩
        have hlt : x.1 < n0 :=
          lt_of_le_of_ne (hmax x (List.mem_cons_of_mem e hx)) hne
        show (x.1 : Int) ≤ (n0 : Int)
        omega
      · have hmem' : (n0, v0) ∈ t := by
          rcases List.mem_cons.mp hmem with h1 | h1
          · exact absurd (congrArg Prod.fst h1.symm) he
          · exact h1
        have he' : e.1 < n0 :=
          lt_of_le_of_ne (hmax e (List.mem_cons_self e t)) he
        have hacc' : (scanStep acc e).2 < (n0 : Int) := by
          rw [scanStep]
          split
          · show (e.1 : Int) < (n0 : Int)
            omega
          · exact hacc
        rw [List.foldl_cons]
        exact ih (scanStep acc e) n0 v0 hnodup.2 hmem'
          (fun x hx => hmax x (List.mem_cons_of_mem e hx)) hacc'

/-- C4 counterexample: when the current iteration's validation file exists
and `JSON.parse` succeeds with a JS-falsy value (a file containing the
literal `null`), the read path returns that value directly
(ralph-state-read.mjs line 90) and the scan never runs — so although a
parsable record with the numerically greatest N exists (iteration 2, with
overallComplete true), it is not selected, and the snapshot's isComplete is
false rather than the greatest-N record's overallComplete as the claim
requires. -/
theorem readLatest_falsy_current_skips_scan :
    readLatestValidation
        (some [("iteration-3.json", some VParse.falsy),
               ("iteration-2.json", some (VParse.record { iteration := 2, overallComplete := true }))]) 3
      = some VParse.falsy ∧
    isComplete (readLatestValidation
        (some [("iteration-3.json", some VParse.falsy),
               ("iteration-2.json", some (VParse.record { iteration := 2, overallComplete := true }))]) 3)
      = false ∧
    iterEntries [("iteration-3.json", some VParse.falsy),
        ("iteration-2.json", some (VParse.record { iteration := 2, overallComplete := true }))]
      = [(2, { iteration := 2, overallComplete := true })] := by
  refine ⟨by decide, by decide, by decide⟩

/-- C4 (amended): the aggregate read returns the successfully parsed content
of the current iteration's validation file whenever that file exists and
parses — including a JS-falsy parse such as `null`, which is returned
directly with no scan and makes isComplete false; only when the current
file is absent or raises on parse does it select the record parsing to a
truthy value that matches `iteration-N.json` with the numerically greatest
`N` (no selection exactly when no such record exists); concretely, given
truthy records for iterations 2 and 10 listed in lexicographic order,
iteration 10 is selected; and the snapshot's `isComplete` equals the
selected record's `overallComplete`, and is false when nothing was selected
or the selection is a falsy parse. -/
theorem readLatestValidation_spec (files : List (String × Option VParse))
    (iter : Nat) (hnodup : ((iterEntries files).map Prod.fst).Nodup) :
    (∀ jv : VParse,
        alookup files ("iteration-" ++ toString iter ++ ".json") = some (some jv) →
        readLatestValidation (some files) iter = some jv)
  ∧ ((alookup files ("iteration-" ++ toString iter ++ ".json")).getD none = none →
      ((readLatestValidation (some files) iter = none ↔ iterEntries files = [])
       ∧ (∀ (n : Nat) (v : VRecord), (n, v) ∈ iterEntries files →
            (∀ e ∈ iterEntries files, e.1 ≤ n) →
            readLatestValidation (some files) iter = some (VParse.record v))))
  ∧ readLatestValidation none iter = none
  ∧ readLatestValidation
      (some [("iteration-10.json", some (VParse.record { iteration := 10, overallComplete := true })),
             ("iteration-2.json", some (VParse.record { iteration := 2, overallComplete := false }))]) 99
      = some (VParse.record { iteration := 10, overallComplete := true })
  ∧ (∀ v : VRecord, readLatestValidation (some files) iter = some (VParse.record v) →
      isComplete (readLatestValidation (some files) iter) = v.overallComplete)
  ∧ isComplete none = false
  ∧ isComplete (some VParse.falsy) = false := by
  refine ⟨?_, ?_, rfl, by decide, ?_, rfl, rfl⟩
  · intro jv hv
    simp [readLatestValidation, hv]
  · intro hcur
    have hbr : readLatestValidation (some files) iter =
        (match (files.foldl scanStepFile ((none : Option VRecord), (-1 : Int))).1 with
          | some v => some (VParse.record v)
          | none => none) := by
      rw [readLatestValidation]
      match h : alookup files ("iteration-" ++ toString iter ++ ".json") with
      | none => rfl
      | some none => rfl
      | some (some jv) => rw [h] at hcur; simp at hcur
    rw [hbr, scan_files_eq_entries]
    constructor
    · constructor
      · intro hnone
        by_contra hne
        match he : iterEntries files with
        | [] => exact hne he
        | e :: t =>
            rw [he] at hnone
            have h1 : (scanStep ((none : Option VRecord), (-1 : Int)) e).1.isSome = true := by
              rw [scanStep, if_pos (show (-1 : Int) < (e.1 : Int) by omega)]
              rfl
            have h2 := scan_isSome t _ h1
            rw [List.foldl_cons] at hnone
            match h3 : (List.foldl scanStep
                (scanStep ((none : Option VRecord), (-1 : Int)) e) t).1 with
            | some v => rw [h3] at hnone; exact Option.noConfusion hnone
            | none => rw [h3] at h2; exact Bool.noConfusion h2
      · intro he
        rw [he]
        rfl
    · intro n v hmem hmax
      rw [scan_max (iterEntries files) _ n v hnodup hmem hmax
        (show (-1 : Int) < (n : Int) by omega)]
  · intro v hv
    rw [hv]
    rfl

/-- Witness for C4: the concrete two-record directory of the claim —
truthy records for iterations 2 and 10 in lexicographic order, ledger
iteration 99 — has distinct iteration numbers and no file for the current
iteration, and the scan selects iteration 10, whose overallComplete drives
isComplete. -/
theorem readLatestValidation_spec_witness :
    readLatestValidation
        (some [("iteration-10.json", some (VParse.record { iteration := 10, overallComplete := true })),
               ("iteration-2.json", some (VParse.record { iteration := 2, overallComplete := false }))]) 99
      = some (VParse.record { iteration := 10, overallComplete := true }) ∧
    isComplete (readLatestValidation
        (some [("iteration-10.json", some (VParse.record { iteration := 10, overallComplete := true })),
               ("iteration-2.json", some (VParse.record { iteration := 2, overallComplete := false }))]) 99)
      = true := by
  constructor
  · exact ((readLatestValidation_spec
      [("iteration-10.json", some (VParse.record { iteration := 10, overallComplete := true })),
       ("iteration-2.json", some (VParse.record { iteration := 2, overallComplete := false }))] 99
      (by decide)).2.1 (by decide)).2 10 { iteration := 10, overallComplete := true }
      (by decide) (by decide)
  · exact (readLatestValidation_spec
      [("iteration-10.json", some (VParse.record { iteration := 10, overallComplete := true })),
       ("iteration-2.json", some (VParse.record { iteration := 2, overallComplete := false }))] 99
      (by decide)).2.2.2.2.1 { iteration := 10, overallComplete := true }
      (((readLatestValidation_spec
        [("iteration-10.json", some (VParse.record { iteration := 10, overallComplete := true })),
         ("iteration-2.json", some (VParse.record { iteration := 2, overallComplete := false }))] 99
        (by decide)).2.1 (by decide)).2 10 { iteration := 10, overallComplete := true }
        (by decide) (by decide))

/-! C5 -/

/-- Helper: the last element of a cons, with default, drops the default. -/
theorem getLast_cons_getD {α : Type} (l : List α) (a s : α) :
    ((a :: l).getLast?).getD s = (l.getLast?).getD a := by
  rcases l with _ | ⟨b, t⟩
  · rfl
  · rw [List.getLast?_cons_cons]
    have hs : ((b :: t).getLast?).isSome = true := by
      rw [List.getLast?_isSome]
      simp
    obtain ⟨x, hx⟩ := Option.isSome_iff_exists.mp hs
    rw [hx]
    rfl

/-- Helper: the running status resolution equals the last truthy status a
matching file contributes, with the base as fallback. -/
theorem statusFoldl_eq_getLast (files : List (String × JFile StepData)) (id : String) :
    ∀ s : String, statusFoldl files id s = ((fileStatusUpdates files id).getLast?).getD s := by
  induction files with
  | nil => intro s; rfl
  | cons f t ih =>
      intro s
      match hf : f.2 with
      | JFile.corrupt =>
          simp only [statusFoldl, List.foldl_cons, hf, fileStatusUpdates,
            List.filterMap_cons] at ih ⊢
          exact ih s
      | JFile.val d =>
          by_cases hc : derivedId f.1 d = id ∧ truthy d.status = true
          · simp only [statusFoldl, List.foldl_cons, hf, fileStatusUpdates,
              List.filterMap_cons] at ih ⊢
            rw [if_pos hc, if_pos hc, getLast_cons_getD]
            exact ih (d.status.getD "")
          · simp only [statusFoldl, List.foldl_cons, hf, fileStatusUpdates,
              List.filterMap_cons] at ih ⊢
            rw [if_neg hc, if_neg hc]
            exact ih s

/-- Helper: how an index lookup's status looks through the overlay fold —
an id the start index holds keeps its entry with the status resolved on top
of its start status; an id it does not hold appears exactly when some
parsable file matches it, with the status resolved on top of "pending". -/
theorem overlay_lookup_status (files : List (String × JFile StepData)) :
    ∀ (idx : List (String × IdxEntry)) (id : String),
      (alookup (files.foldl overlayFile idx) id).map IdxEntry.status =
        match alookup idx id with
        | some e => some (statusFoldl files id e.status)
        | none =>
            if files.any (matchesId id) then some (statusFoldl files id "pending")
            else none := by
  induction files with
  | nil =>
      intro idx id
      match h : alookup idx id with
      | some e => simp [h, statusFoldl]
      | none => simp [h]
  | cons f t ih =>
      intro idx id
      match hf : f.2 with
      | JFile.corrupt =>
          have hov : overlayFile idx f = idx := by simp [overlayFile, hf]
          have hm : matchesId id f = false := by simp [matchesId, hf]
          have hsf : ∀ s, statusFoldl (f :: t) id s = statusFoldl t id s := by
            intro s
            simp only [statusFoldl, List.foldl_cons, hf]
          rw [List.foldl_cons, hov, ih idx id]
          match h : alookup idx id with
          | some e => simp only [hsf]
          | none => simp only [List.any_cons, hm, Bool.false_or, hsf]
      | JFile.val d =>
          have hsf : ∀ s, statusFoldl (f :: t) id s =
              statusFoldl t id
                (if derivedId f.1 d = id ∧ truthy d.status = true
                  then d.status.getD "" else s) := by
            intro s
            simp only [statusFoldl, List.foldl_cons, hf]
          by_cases hid : derivedId f.1 d = id
          · have hov : overlayFile idx f =
                aset idx id (mergeEntry ((alookup idx id).getD (freshEntry id)) d) := by
              simp [overlayFile, hf, hid]
            have hm : matchesId id f = true := by simp [matchesId, hf, hid]
            rw [List.foldl_cons, hov, ih _ id, alookup_aset, if_pos rfl]
            match h : alookup idx id with
            | some e =>
                have hms : (mergeEntry e d).status =
                    if derivedId f.1 d = id ∧ truthy d.status = true
                      then d.status.getD "" else e.status := by
                  by_cases ht : truthy d.status = true <;>
                    simp [mergeEntry, hid, ht]
                simp only [Option.getD_some, hsf, hms]
            | none =>
                have hms : (mergeEntry (freshEntry id) d).status =
                    if derivedId f.1 d = id ∧ truthy d.status = true
                      then d.status.getD "" else "pending" := by
                  by_cases ht : truthy d.status = true <;>
                    simp [mergeEntry, freshEntry, hid, ht]
                simp only [Option.getD_none, List.any_cons, hm, Bool.true_or,
                  hsf, hms, eq_self_iff_true, if_true]
          · have hov : overlayFile idx f =
                aset idx (derivedId f.1 d)
                  (mergeEntry ((alookup idx (derivedId f.1 d)).getD
                    (freshEntry (derivedId f.1 d))) d) := by
              simp [overlayFile, hf]
            have hm : matchesId id f = false := by simp [matchesId, hf, hid]
            have hsf0 : ∀ s, statusFoldl (f :: t) id s = statusFoldl t id s := by
              intro s
              rw [hsf s, if_neg (by simp [hid])]
            rw [List.foldl_cons, hov, ih _ id, alookup_aset, if_neg hid]
            match h : alookup idx id with
            | some e => simp only [hsf0]
            | none => simp only [List.any_cons, hm, Bool.false_or, hsf0]

/-- Helper: an id is absent from the overlaid index exactly when the start
index lacks it and no parsable file matches it. -/
theorem overlay_lookup_none (files : List (String × JFile StepData))
    (idx : List (String × IdxEntry)) (id : String) :
    alookup (files.foldl overlayFile idx) id = none ↔
      (alookup idx id = none ∧ files.any (matchesId id) = false) := by
  have h := overlay_lookup_status files idx id
  match h2 : alookup idx id with
  | some e =>
      rw [h2] at h
      constructor
      · intro hnone
        rw [hnone] at h
        simp at h
      · rintro ⟨h1, _⟩
        simp at h1
  | none =>
      rw [h2] at h
      match hb : files.any (matchesId id) with
      | true =>
          rw [hb] at h
          rw [if_pos rfl] at h
          constructor
          · intro hnone
            rw [hnone] at h
            simp at h
          · rintro ⟨_, hf2⟩
            simp at hf2
      | false =>
          rw [hb] at h
          rw [if_neg (by simp)] at h
          constructor
          · intro _
            exact ⟨rfl, rfl⟩
          · intro _
            exact Option.map_eq_none'.mp h

/-- Helper: the overlay fold preserves key distinctness. -/
theorem overlay_nodupKeys (files : List (String × JFile StepData)) :
    ∀ idx : List (String × IdxEntry), (idx.map Prod.fst).Nodup →
      ((files.foldl overlayFile idx).map Prod.fst).Nodup := by
  induction files with
  | nil => intro idx h; exact h
  | cons f t ih =>
      intro idx h
      rw [List.foldl_cons]
      apply ih
      match hf : f.2 with
      | JFile.corrupt => simpa [overlayFile, hf] using h
      | JFile.val d =>
          rw [show overlayFile idx f =
            aset idx (derivedId f.1 d)
              (mergeEntry ((alookup idx (derivedId f.1 d)).getD
                (freshEntry (derivedId f.1 d))) d) by simp [overlayFile, hf]]
          exact nodupKeys_aset _ _ _ h

/-- Helper: the ledger-cache base status seeded for an id coincides with the
spec-side fallback status — also for ids outside the ledger cache, where
both are "pending". -/
theorem seedEntry_status (state : Ledger) (id : String) :
    (seedEntry state id).status =
      match alookup (state.steps.getD []) id with
      | some ls => if truthy ls.status then ls.status.getD "" else "pending"
      | none => "pending" := by
  match h : alookup (state.steps.getD []) id with
  | some ls => simp [seedEntry, h]
  | none => simp [seedEntry, h, truthy]

/-- Helper: the spec-side resolved status is the status fold over the seed
base. -/
theorem specResolvedStatus_eq_foldl (state : Ledger)
    (files : List (String × JFile StepData)) (id : String) :
    specResolvedStatus state files id =
      statusFoldl files id (seedEntry state id).status := by
  rw [statusFoldl_eq_getLast, seedEntry_status]
  rfl

/-- Helper: the built index resolves every expected id to the spec-side
resolved status. -/
theorem idx_lookup_expected (state : Ledger) (files : List (String × JFile StepData))
    (id : String) (hid : id ∈ (state.steps.getD []).map Prod.fst) :
    (alookup (loadStepIndex state files).1 id).map IdxEntry.status
      = some (specResolvedStatus state files id) := by
  have hseed : alookup
      (((state.steps.getD []).map Prod.fst).map (fun i => (i, seedEntry state i))) id
      = some (seedEntry state id) := by
    rw [alookup_map_self, if_pos hid]
  have h := overlay_lookup_status files
    (((state.steps.getD []).map Prod.fst).map (fun i => (i, seedEntry state i))) id
  rw [hseed] at h
  rw [specResolvedStatus_eq_foldl]
  simp only [loadStepIndex]
  exact h

/-- Helper: with declared expectations, allStepsComplete is "every expected
id resolves to complete". -/
theorem validate_all_expected (state : Ledger) (files : List (String × JFile StepData))
    (stepsTexts progressTexts : List (String × String)) (testsPassing : Option Bool)
    (hne : (state.steps.getD []).map Prod.fst ≠ []) :
    (validateCompletion state files stepsTexts progressTexts testsPassing).allStepsComplete = true
      ↔ ∀ id ∈ (state.steps.getD []).map Prod.fst,
          specResolvedStatus state files id = "complete" := by
  have hlook : ∀ id ∈ (state.steps.getD []).map Prod.fst,
      (alookup (files.foldl overlayFile
          (((state.steps.getD []).map Prod.fst).map (fun i => (i, seedEntry state i)))) id).map
        IdxEntry.status = some (specResolvedStatus state files id) := by
    intro id hid
    have h := idx_lookup_expected state files id hid
    simpa only [loadStepIndex] using h
  simp only [validateCompletion, loadStepIndex]
  rw [if_pos (by simpa using List.length_pos.mpr hne), List.all_eq_true]
  constructor
  · intro h id hid
    obtain ⟨e, he, hst⟩ := Option.map_eq_some'.mp (hlook id hid)
    have h2 := h id hid
    rw [he] at h2
    simp only [decide_eq_true_eq] at h2
    rw [← hst]
    exact h2
  · intro h id hid
    obtain ⟨e, he, hst⟩ := Option.map_eq_some'.mp (hlook id hid)
    rw [he]
    simp only [decide_eq_true_eq]
    rw [hst]
    exact h id hid

/-- Helper: with no declared expectations, allStepsComplete is "some parsable
step file was discovered, and every discovered id resolves to complete". -/
theorem validate_all_discovered (state : Ledger) (files : List (String × JFile StepData))
    (stepsTexts progressTexts : List (String × String)) (testsPassing : Option Bool)
    (hsteps0 : state.steps.getD [] = []) :
    (validateCompletion state files stepsTexts progressTexts testsPassing).allStepsComplete = true
      ↔ ((∃ f ∈ files, f.2 ≠ JFile.corrupt) ∧
          ∀ id, (∃ f ∈ files, matchesId id f = true) →
            specResolvedStatus state files id = "complete") := by
  have hnodup : ((files.foldl overlayFile ([] : List (String × IdxEntry))).map Prod.fst).Nodup :=
    overlay_nodupKeys files [] (by simp)
  have hspecp : ∀ id, specResolvedStatus state files id = statusFoldl files id "pending" := by
    intro id
    rw [specResolvedStatus_eq_foldl]
    congr 1
    rw [seedEntry_status, hsteps0]
    rfl
  simp only [validateCompletion, loadStepIndex, hsteps0, List.map_nil, gt_iff_lt]
  rw [if_neg (by simp), Bool.and_eq_true, List.all_eq_true]
  have hlen : (decide (0 < ((files.foldl overlayFile
        ([] : List (String × IdxEntry))).map Prod.snd).length) = true)
      ↔ (∃ f ∈ files, f.2 ≠ JFile.corrupt) := by
    rw [decide_eq_true_eq, List.length_map, List.length_pos]
    constructor
    · intro hne2
      obtain ⟨p, hp⟩ := List.exists_mem_of_ne_nil _ hne2
      have hmem : p.1 ∈ (files.foldl overlayFile ([] : List (String × IdxEntry))).map Prod.fst :=
        List.mem_map.mpr ⟨p, hp, rfl⟩
      have hlookup : ¬ alookup (files.foldl overlayFile ([] : List (String × IdxEntry))) p.1 = none := by
        rw [alookup_eq_none]
        exact fun hc => hc hmem
      have hany : files.any (matchesId p.1) = true := by
        by_contra hb
        exact hlookup ((overlay_lookup_none files [] p.1).mpr
          ⟨rfl, by revert hb; cases files.any (matchesId p.1) <;> simp⟩)
      obtain ⟨f, hf, hm⟩ := List.any_eq_true.mp hany
      refine ⟨f, hf, ?_⟩
      match hv : f.2 with
      | JFile.corrupt => rw [matchesId, hv] at hm; exact Bool.noConfusion hm
      | JFile.val d => simp
    · rintro ⟨f, hf, hv⟩
      match hval : f.2 with
      | JFile.corrupt => exact absurd hval hv
      | JFile.val d =>
          have hm : matchesId (derivedId f.1 d) f = true := by
            simp [matchesId, hval]
          have hany : files.any (matchesId (derivedId f.1 d)) = true :=
            List.any_eq_true.mpr ⟨f, hf, hm⟩
          have hlookup : ¬ alookup (files.foldl overlayFile
              ([] : List (String × IdxEntry))) (derivedId f.1 d) = none := by
            intro hc
            have := (overlay_lookup_none files [] (derivedId f.1 d)).mp hc
            rw [hany] at this
            exact Bool.noConfusion this.2
          match halo : alookup (files.foldl overlayFile
              ([] : List (String × IdxEntry))) (derivedId f.1 d) with
          | none => exact absurd halo hlookup
          | some e =>
              exact List.ne_nil_of_mem (mem_of_alookup _ _ _ halo)
  rw [hlen]
  have hall : (∀ e ∈ (files.foldl overlayFile
        ([] : List (String × IdxEntry))).map Prod.snd, decide (e.status = "complete") = true)
      ↔ (∀ id, (∃ f ∈ files, matchesId id f = true) →
          specResolvedStatus state files id = "complete") := by
    constructor
    · intro h id hex
      have hany : files.any (matchesId id) = true :=
        List.any_eq_true.mpr hex
      match halo : alookup (files.foldl overlayFile ([] : List (String × IdxEntry))) id with
      | none =>
          have := (overlay_lookup_none files [] id).mp halo
          rw [hany] at this
          exact Bool.noConfusion this.2
      | some e =>
          have hst := overlay_lookup_status files [] id
          rw [halo] at hst
          simp only [alookup] at hst
          rw [hany, if_pos rfl] at hst
          simp only [Option.map_some'] at hst
          have he2 : e.status = statusFoldl files id "pending" := Option.some.inj hst
          have hmem : e ∈ (files.foldl overlayFile ([] : List (String × IdxEntry))).map Prod.snd :=
            List.mem_map.mpr ⟨(id, e), mem_of_alookup _ _ _ halo, rfl⟩
          have := h e hmem
          rw [decide_eq_true_eq] at this
          rw [hspecp id, ← he2]
          exact this
    · intro h e hmem
      obtain ⟨p, hp, hpe⟩ := List.mem_map.mp hmem
      have halo : alookup (files.foldl overlayFile ([] : List (String × IdxEntry))) p.1 = some p.2 :=
        alookup_mem _ p hnodup hp
      have hst := overlay_lookup_status files [] p.1
      rw [halo] at hst
      simp only [alookup] at hst
      match hany : files.any (matchesId p.1) with
      | false =>
          rw [hany] at hst
          rw [if_neg (by simp)] at hst
          simp at hst
      | true =>
          rw [hany, if_pos rfl] at hst
          simp only [Option.map_some'] at hst
          have he2 : p.2.status = statusFoldl files p.1 "pending" := Option.some.inj hst
          have hspec := h p.1 (List.any_eq_true.mp hany)
          rw [hspecp p.1] at hspec
          rw [decide_eq_true_eq, ← hpe, he2, hspec]
  rw [hall]

/-- C5: a validation pass computes allStepsComplete exactly as the claim
states — with at least one expected step id declared in the ledger, every
expected id must resolve (file data winning over the ledger cache) to status
complete; with none declared, at least one parsable step file must have been
discovered and every discovered step must resolve to complete — and
overallComplete = allStepsComplete AND (testsPassing is not false) AND (no
completion promise configured OR the promise was found). -/
theorem validateCompletion_spec (state : Ledger)
    (files : List (String × JFile StepData))
    (stepsTexts progressTexts : List (String × String)) (testsPassing : Option Bool) :
    ((validateCompletion state files stepsTexts progressTexts testsPassing).allStepsComplete = true
       ↔ specAllStepsComplete state files)
  ∧ ((validateCompletion state files stepsTexts progressTexts testsPassing).overallComplete = true
       ↔ ((validateCompletion state files stepsTexts progressTexts testsPassing).allStepsComplete = true
          ∧ ¬ testsPassing = some false
          ∧ (truthy state.completionPromise = true →
              (validateCompletion state files stepsTexts progressTexts testsPassing).promiseFound = true))) := by
  constructor
  · by_cases hne : (state.steps.getD []).map Prod.fst = []
    · have hsteps0 : state.steps.getD [] = [] := List.map_eq_nil_iff.mp hne
      rw [validate_all_discovered state files stepsTexts progressTexts testsPassing hsteps0]
      simp only [specAllStepsComplete]
      rw [if_neg (by simp [hne])]
    · rw [validate_all_expected state files stepsTexts progressTexts testsPassing hne]
      simp only [specAllStepsComplete]
      rw [if_pos hne]
  · simp only [validateCompletion, loadStepIndex]
    by_cases htr : truthy state.completionPromise = true
    · rw [if_pos htr]
      simp only [Bool.and_eq_true, Bool.not_eq_true', decide_eq_false_iff_not]
      constructor
      · rintro ⟨⟨h1, h2⟩, h3⟩
        exact ⟨h1, h2, fun _ => h3⟩
      · rintro ⟨h1, h2, h3⟩
        exact ⟨⟨h1, h2⟩, h3 htr⟩
    · rw [if_neg htr]
      simp only [Bool.and_eq_true, Bool.not_eq_true', decide_eq_false_iff_not, and_true]
      constructor
      · rintro ⟨h1, h2⟩
        exact ⟨h1, h2, fun hc => absurd hc htr⟩
      · rintro ⟨h1, h2, _⟩
        exact ⟨h1, h2⟩

end Ralph
